import Mathlib

/-!
Verification development for the price-sheet reconciliation engine
(`create_battle_excel` and the column naming of `parse_image_with_gemini_v2`
in `app.py`).

The embedding works over rational prices (`ℚ`): every price the engine sees
went through Python's `float(val)`, and all the engine does with prices is
compare them and copy them, so the ordered field `ℚ` models the reachable
behaviour exactly; pandas `NaN` / missing / non-numeric cells are modelled
as `none` (a `NaN` read never updates the running maximum because every
`NaN > x` comparison is false in Python, which is observationally the same
as being skipped by the `except` branch).

Python string primitives (`in`, `split`, `replace`, `strip`, `lower`,
string `<`) are embedded as structurally recursive functions on `List Char`
so that every theorem can be evaluated on concrete inputs by `decide`.
-/

/-- The four fixed comparison categories of the merged sheet, in the order of
`target_categories`: 공시(MNP), 선약(MNP), 공시(기변), 선약(기변);
i.e. contract type (public subsidy 공시 / select commitment 선약) crossed
with acquisition type (port-in MNP / device change 기변). -/
inductive Category
  | gongsiMNP
  | seonyakMNP
  | gongsiGibyeon
  | seonyakGibyeon
  deriving DecidableEq

/-- Embedding of Python `str.startswith` on character lists (used only to
express substring search below). -/
def chStarts : List Char → List Char → Bool
  | [], _ => true
  | _ :: _, [] => false
  | x :: xs, y :: ys => x = y && chStarts xs ys

/-- Embedding of the Python substring test `pat in s` on character lists:
some suffix of `s` starts with `pat`. -/
def chContains (pat : List Char) : List Char → Bool
  | [] => pat.isEmpty
  | x :: rest => chStarts pat (x :: rest) || chContains pat rest

/-- Python `pat in s` for strings. -/
def hasSub (pat s : String) : Bool := chContains pat.data s.data

/-- Embedding of Python `str.split(sep)` for a single-character separator
`sep`: parts between occurrences of the separator, keeping empty parts. -/
def splitOnChar (c : Char) : List Char → List (List Char)
  | [] => [[]]
  | x :: xs =>
    if x = c then [] :: splitOnChar c xs
    else
      match splitOnChar c xs with
      | [] => [[x]]
      | h :: t => (x :: h) :: t

/-- Embedding of Python `str.strip()` (ASCII whitespace, which is all that
occurs in the data reaching this engine). -/
def chTrim (l : List Char) : List Char :=
  ((l.dropWhile Char.isWhitespace).reverse.dropWhile Char.isWhitespace).reverse

/-- Python `str.strip()` on strings. -/
def strTrim (s : String) : String := String.mk (chTrim s.data)

/-- Python `str.lower()` (ASCII case folding, which is all the sentinel
comparison below needs). -/
def strLower (s : String) : String := String.mk (s.data.map Char.toLower)

/-- Lexicographic (code-point) string comparison, the order Python's
`sorted` uses on `str`: `charsLe a b = true` iff `a ≤ b`. -/
def charsLe : List Char → List Char → Bool
  | [], _ => true
  | _ :: _, [] => false
  | x :: xs, y :: ys => if x < y then true else if y < x then false else charsLe xs ys

/-- Case-sensitive lexicographic order on strings as a proposition. -/
def strLePr (a b : String) : Prop := charsLe a.data b.data = true

instance : DecidableRel strLePr := fun a b => by unfold strLePr; infer_instance

/-- Column letter of a 1-based spreadsheet column index, as produced by
openpyxl's `column_letter` (bijective base 26); the first argument is
recursion fuel, always called with enough of it. -/
def colLettersAux : Nat → Nat → String
  | 0, _ => ""
  | _ + 1, 0 => ""
  | fuel + 1, n + 1 => colLettersAux fuel (n / 26) ++ String.mk [Char.ofNat (65 + n % 26)]

/-- Column letter of a 1-based column index (1 ↦ "A", 2 ↦ "B", 27 ↦ "AA"). -/
def colLetters (n : Nat) : String := colLettersAux n n

/-- Absolute reference `f"${col_letter}$2"` to the row-2 offset cell of the
given 1-based column, as stored in `agency_adj_map`. -/
def cellRefOfCol (n : Nat) : String := "$" ++ colLetters n ++ "$2"

/-- One vendor's analysed data frame after `set_index`: the model-name index
(`df.index`, order and duplicates preserved), the price columns
(`df.columns`), and the cell lookup `df.loc[model, col]`.  `loc` returns
`none` for a missing, `NaN` or otherwise non-numeric cell, i.e. exactly
when the Python `float(val)` guard (or a `NaN` comparison) makes the
engine skip the cell. -/
structure Frame where
  index : List String
  cols : List String
  loc : String → String → Option ℚ

/-- Pandas `df.empty`: some axis has length zero. -/
def frameEmpty (f : Frame) : Prop := f.index = [] ∨ f.cols = []

instance (f : Frame) : Decidable (frameEmpty f) := by unfold frameEmpty; infer_instance

/-- One analysed `PolicyData` object as `create_battle_excel` reads it:
agency name, display colour (`color_hex`), analysed frame `df`, the two
review filters (`selected_models` / `selected_columns`, empty list =
filter unset = everything included, matching Python list truthiness), and
the free-text footer (`footer_text`, empty string = no notes, matching
Python string truthiness). -/
structure Policy where
  name : String
  colorHex : String
  df : Frame
  selectedModels : List String
  selectedColumns : List String
  footerText : String

/-- Models scanned for one source when building the merged model set:
`p.selected_models if p.selected_models else p.df.index`. -/
def effectiveModelIds (p : Policy) : List String :=
  if p.selectedModels = [] then p.df.index else p.selectedModels

/-- Columns scanned for one source:
`p.selected_columns if p.selected_columns else p.df.columns`. -/
def colsToScan (p : Policy) : List String :=
  if p.selectedColumns = [] then p.df.cols else p.selectedColumns

/-- The sentinel tokens `["unknown", "none", "nan"]` of the model-collection
loop. -/
def sentinelTokens : List String := ["unknown", "none", "nan"]

/-- Normalisation applied to one scanned model identifier in the
`all_models` collection loop: `val_str = str(idx).strip()`, kept iff
`val_str and val_str.lower() not in ["unknown", "none", "nan"]`.
(The identifiers reaching this loop are strings: the frame's index was
passed through `.astype(str)` when the frame was built.) -/
def normModel (idx : String) : Option String :=
  let v := strTrim idx
  if v ≠ "" ∧ strLower v ∉ sentinelTokens then some v else none

/-- The multiset of normalised model identifiers collected from all sources:
sources with `df.empty` are skipped, each other source contributes its
`effectiveModelIds` after `normModel`. -/
def collectModels (ps : List Policy) : List String :=
  ps.flatMap (fun p =>
    if ¬ frameEmpty p.df then (effectiveModelIds p).filterMap normModel else [])

/-- The merged model list `sorted([m for m in all_models if m], key=str)`:
distinct collected identifiers, the falsy (empty) ones dropped, sorted
ascending by code-point order. -/
def allModels (ps : List Policy) : List String :=
  List.insertionSort strLePr (((collectModels ps).dedup).filter (fun m => m ≠ ""))

/-- Classification of a column name string into one of the four categories,
exactly the nested `if "공시" in col_str: ... elif "선약" in col_str: ...`
of the scan; `none` means the column feeds no category. -/
def catOf (col : String) : Option Category :=
  if hasSub "공시" col then
    if hasSub "MNP" col then some Category.gongsiMNP
    else if hasSub "기변" col then some Category.gongsiGibyeon
    else none
  else if hasSub "선약" col then
    if hasSub "MNP" col then some Category.seonyakMNP
    else if hasSub "기변" col then some Category.seonyakGibyeon
    else none
  else none

/-- Plan-label extraction of the scan:
`col_str.split("(")[-1].replace(")", "")` when the column name contains
both `"("` and `")"`, the empty string otherwise. -/
def planOf (col : String) : String :=
  if '(' ∈ col.data ∧ ')' ∈ col.data then
    String.mk (((splitOnChar '(' col.data).getLastD []).filter (fun ch => ch ≠ ')'))
  else ""

/-- The hardcoded plan rewrite of `parse_image_with_gemini_v2`:
`if "T우주" in plan: plan = "5GX 프리미엄(T우주)"`. -/
def fixPlan (plan : String) : String :=
  if hasSub "T우주" plan then "5GX 프리미엄(T우주)" else plan

/-- Column name built by `parse_image_with_gemini_v2`:
`f"{sub}|{cond}({plan})"` after the plan rewrite. -/
def mkColumnName (sub cond plan : String) : String :=
  sub ++ "|" ++ cond ++ "(" ++ fixPlan plan ++ ")"

/-- Running best of one (model, category) slot of `best_values`:
`(max_price, best_plan, color_hex, policy_name)`, with `color`/`pname`
`none` exactly when the Python slot still holds its initial `None`. -/
structure Best where
  price : ℚ
  plan : String
  color : Option String
  pname : Option String
  deriving DecidableEq

/-- Initial slot value `(-1, "", None, None)`. -/
def initBest : Best := { price := -1, plan := "", color := none, pname := none }

/-- One valid scan candidate: a numeric price found in a category-matching
column of one source, together with the data the update would record. -/
structure Cand where
  price : ℚ
  plan : String
  color : String
  pname : String
  deriving DecidableEq

/-- The `Best` value a winning candidate is recorded as. -/
def candBest (c : Cand) : Best :=
  { price := c.price, plan := c.plan, color := some c.color, pname := some c.pname }

/-- The strict-greater-than update of the scan:
`if price > current_max: best_values[category] = ...`. -/
def scanStep (b : Best) (c : Cand) : Best :=
  if b.price < c.price then candBest c else b

/-- Inner loop body of the scan for one column: read `df.loc[model, col]`,
skip non-numeric, classify, and update the slot of the target category. -/
def scanCol (p : Policy) (model : String) (cat : Category) (b : Best) (col : String) : Best :=
  match p.df.loc model col with
  | none => b
  | some price =>
    if catOf col = some cat then
      if b.price < price then
        { price := price, plan := planOf col, color := some p.colorHex, pname := some p.name }
      else b
    else b

/-- Per-source step of the scan: skip the source unless the model is in its
index, honour the `selected_models` filter, then fold over the columns to
scan.  (The Python loop keeps all four category slots in one dict and each
column only ever updates its own category's slot, so scanning per fixed
category is the same computation.) -/
def scanPolicy (model : String) (cat : Category) (b : Best) (p : Policy) : Best :=
  if model ∈ p.df.index then
    if p.selectedModels ≠ [] ∧ model ∉ p.selectedModels then b
    else (colsToScan p).foldl (scanCol p model cat) b
  else b

/-- Final content of `best_values[cat]` for one model after scanning all
sources in input order. -/
def bestFor (ps : List Policy) (model : String) (cat : Category) : Best :=
  ps.foldl (scanPolicy model cat) initBest

/-- The candidate a single column yields, if any: a numeric cell in a
column classified into the target category. -/
def candOfCol (p : Policy) (model : String) (cat : Category) (col : String) : Option Cand :=
  match p.df.loc model col with
  | none => none
  | some price =>
    if catOf col = some cat then
      some { price := price, plan := planOf col, color := p.colorHex, pname := p.name }
    else none

/-- All valid candidates one source contributes for (model, category), in
column-scan order; empty when the source is skipped or filtered out. -/
def candidatesOf (model : String) (cat : Category) (p : Policy) : List Cand :=
  if model ∈ p.df.index ∧ ¬ (p.selectedModels ≠ [] ∧ model ∉ p.selectedModels) then
    (colsToScan p).filterMap (candOfCol p model cat)
  else []

/-- All valid candidates for (model, category) across all sources, in scan
order (sources in input order, columns in scan order inside each). -/
def candidates (ps : List Policy) (model : String) (cat : Category) : List Cand :=
  ps.flatMap (candidatesOf model cat)

/-- A rendered price cell of the output workbook: explicitly empty, a
literal number, or an additive formula `f"={base}+{ref}"`. -/
inductive PriceCell
  | empty
  | lit (base : ℚ)
  | formula (base : ℚ) (ref : String)
  deriving DecidableEq

/-- One merged-sheet cell pair: the price cell, the plan cell, and the
optional solid-fill colour tag of the price cell. -/
structure MergedCell where
  price : PriceCell
  plan : String
  fill : Option String
  deriving DecidableEq

/-- The header-row offset map `agency_adj_map` as the Python loop builds it:
one `(p.name, f"${col_letter}$2")` pair per policy, the column counter
starting at 2 and incrementing per policy. -/
def agencyAdjPairs : Nat → List Policy → List (String × String)
  | _, [] => []
  | col, p :: ps => (p.name, cellRefOfCol col) :: agencyAdjPairs (col + 1) ps

/-- Python dict lookup in `agency_adj_map`: the value of the last assignment
to the key, `none` when the key was never assigned. -/
def adjLookup (ps : List Policy) (n : String) : Option String :=
  ((agencyAdjPairs 2 ps).reverse.find? (fun e => e.1 = n)).map (fun e => e.2)

/-- The header rows of the merged sheet: one `(name, 0, offset-cell ref)`
triple per policy — row 1 holds the name, row 2 the adjustment value
initialised to `0`, at the per-policy column. -/
def agencyHeaderRows : Nat → List Policy → List (String × ℚ × String)
  | _, [] => []
  | col, p :: ps => (p.name, 0, cellRefOfCol col) :: agencyHeaderRows (col + 1) ps

/-- The price cell written for a winning slot: the additive formula
`f"={price}+{adj_cell_ref}"` when `p_name` is truthy and present in
`agency_adj_map`, the literal price otherwise. -/
def renderPrice (ps : List Policy) (b : Best) : PriceCell :=
  match b.pname with
  | some n =>
    if n ≠ "" then
      match adjLookup ps n with
      | some ref => PriceCell.formula b.price ref
      | none => PriceCell.lit b.price
    else PriceCell.lit b.price
  | none => PriceCell.lit b.price

/-- The fill tag of a winning price cell: the colour with leading `#`
stripped, applied only when the remaining hex string has six characters. -/
def renderFill (b : Best) : Option String :=
  match b.color with
  | some c =>
    if c ≠ "" then
      let h := c.data.dropWhile (fun ch => ch = '#')
      if h.length = 6 then some (String.mk h) else none
    else none
  | none => none

/-- Rendering of one `best_values` slot into the merged sheet: a winning
slot (`price != -1`) gets its price cell, plan text and colour tag; a
still-initial slot renders as explicitly empty price and plan cells with
no tag. -/
def renderCell (ps : List Policy) (b : Best) : MergedCell :=
  if b.price ≠ -1 then
    { price := renderPrice ps b, plan := b.plan, fill := renderFill b }
  else
    { price := PriceCell.empty, plan := "", fill := none }

/-- The merged cell finally written for one (model, category) pair. -/
def mergedCellFor (ps : List Policy) (model : String) (cat : Category) : MergedCell :=
  renderCell ps (bestFor ps model cat)

/-- The category column order of the merged sheet header. -/
def targetCategories : List Category :=
  [Category.gongsiMNP, Category.seonyakMNP, Category.gongsiGibyeon, Category.seonyakGibyeon]

/-- The consolidated notes lines: the loop `for p in policies: if
p.footer_text: write(f"■ {p.name}: {p.footer_text}")`. -/
def notesOf (ps : List Policy) : List String :=
  ps.filterMap (fun p =>
    if p.footerText ≠ "" then some ("■ " ++ p.name ++ ": " ++ p.footerText) else none)

/-- Consolidated notes as the specification describes them (for comparison
with `notesOf`): the same lines, but taken over the sources sorted
ascending by source name. -/
def notesByName (ps : List Policy) : List String :=
  notesOf (List.insertionSort (fun a b => strLePr a.name b.name) ps)

/-- One raw per-source sheet: title `f"원본_{p.name}"`, the per-sheet global
offset cell (C1, initialised 0), the full unfiltered grid with numeric
cells rendered as `f"={val}+$C$1"` formulas, and the source's footer. -/
structure RawSheet where
  title : String
  offsetInit : ℚ
  header : List String
  rows : List (String × List PriceCell)
  footer : String

/-- The raw sheet built for one source.  A `none` cell renders as empty
here; note the abstraction limit: `loc` conflates missing/empty cells
with pandas `NaN`, and while the merged-sheet scan treats the two
identically (a `NaN` never updates the running maximum), the raw-sheet
code writes a `NaN` cell as the formula string `f"={float(nan)}+$C$1"`
(the `float(val)` guard passes for `NaN`) whereas a missing/empty cell is
written as is.  No claim concerns raw-sheet cell contents; the raw sheets
participate only in the determinism/no-mutation statement, which this
granularity does not affect. -/
def rawSheetOf (p : Policy) : RawSheet :=
  { title := "원본_" ++ p.name
    offsetInit := 0
    header := p.df.cols
    rows := p.df.index.map (fun m =>
      (m, p.df.cols.map (fun c =>
        match p.df.loc m c with
        | some v => PriceCell.formula v "$C$1"
        | none => PriceCell.empty)))
    footer := p.footerText }

/-- The whole document `create_battle_excel` builds, at the granularity the
specification talks about: offset header rows, merged model list, merged
table, consolidated notes, raw sheets. -/
structure BattleDoc where
  header : List (String × ℚ × String)
  models : List String
  mergedRows : List (String × List MergedCell)
  notes : List String
  rawSheets : List RawSheet

/-- State-threaded run of `create_battle_excel`: each phase reads the policy
list and returns it for the next phase.  The Python function body contains
no assignment to any attribute of a policy object (it only reads `name`,
`color_hex`, `df`, `selected_models`, `selected_columns`, `footer_text`
and writes into the fresh workbook), so every phase returns its input
state unchanged. -/
def createBattleRun (ps : List Policy) : BattleDoc × List Policy :=
  let hdr := agencyHeaderRows 2 ps
  let ms := allModels ps
  let rows := ms.map (fun m => (m, targetCategories.map (fun cat => mergedCellFor ps m cat)))
  let ns := notesOf ps
  let raws := ps.map rawSheetOf
  ({ header := hdr, models := ms, mergedRows := rows, notes := ns, rawSheets := raws }, ps)

/-- The document `create_battle_excel` returns. -/
def createBattleExcel (ps : List Policy) : BattleDoc := (createBattleRun ps).1

/-! ### Scan lemmas: the nested loop as a fold over the candidate list -/

/-- One column step of the scan agrees with the candidate view. -/
theorem scanCol_eq_scanStep (p : Policy) (model : String) (cat : Category) (b : Best)
    (col : String) :
    scanCol p model cat b col =
      match candOfCol p model cat col with
      | some c => scanStep b c
      | none => b := by
  unfold scanCol candOfCol scanStep candBest
  cases p.df.loc model col with
  | none => rfl
  | some price =>
    by_cases h : catOf col = some cat
    · simp only [if_pos h]
    · simp only [if_neg h]

/-- The column loop of one source is the candidate fold of that source. -/
theorem foldl_scanCol (p : Policy) (model : String) (cat : Category) :
    ∀ (cols : List String) (b : Best),
      cols.foldl (scanCol p model cat) b =
        (cols.filterMap (candOfCol p model cat)).foldl scanStep b := by
  intro cols
  induction cols with
  | nil => intro b; rfl
  | cons col rest ih =>
    intro b
    rw [List.foldl_cons, List.filterMap_cons, scanCol_eq_scanStep]
    cases h : candOfCol p model cat col with
    | none => exact ih b
    | some c => rw [List.foldl_cons]; exact ih (scanStep b c)

/-- One source step of the scan is the fold over its candidate list. -/
theorem scanPolicy_eq (model : String) (cat : Category) (b : Best) (p : Policy) :
    scanPolicy model cat b p = (candidatesOf model cat p).foldl scanStep b := by
  unfold scanPolicy candidatesOf
  by_cases hIdx : model ∈ p.df.index
  · by_cases hSkip : p.selectedModels ≠ [] ∧ model ∉ p.selectedModels
    · have hg : ¬ (model ∈ p.df.index ∧ ¬ (p.selectedModels ≠ [] ∧ model ∉ p.selectedModels)) :=
        fun hcon => hcon.2 hSkip
      rw [if_pos hIdx, if_pos hSkip, if_neg hg, List.foldl_nil]
    · have hg : model ∈ p.df.index ∧ ¬ (p.selectedModels ≠ [] ∧ model ∉ p.selectedModels) :=
        ⟨hIdx, hSkip⟩
      rw [if_pos hIdx, if_neg hSkip, if_pos hg, foldl_scanCol]
  · have hg : ¬ (model ∈ p.df.index ∧ ¬ (p.selectedModels ≠ [] ∧ model ∉ p.selectedModels)) :=
      fun hcon => hIdx hcon.1
    rw [if_neg hIdx, if_neg hg, List.foldl_nil]

/-- The whole scan is the fold over the flattened candidate list. -/
theorem foldl_scanPolicy_eq (model : String) (cat : Category) :
    ∀ (ps : List Policy) (b : Best),
      ps.foldl (scanPolicy model cat) b =
        (ps.flatMap (candidatesOf model cat)).foldl scanStep b := by
  intro ps
  induction ps with
  | nil => intro b; rfl
  | cons p rest ih =>
    intro b
    rw [List.foldl_cons, List.flatMap_cons, List.foldl_append, scanPolicy_eq]
    exact ih _

/-- `bestFor` as a fold over the candidate list. -/
theorem bestFor_eq (ps : List Policy) (model : String) (cat : Category) :
    bestFor ps model cat = (candidates ps model cat).foldl scanStep initBest :=
  foldl_scanPolicy_eq model cat ps initBest

/-- The price of one update step is the running maximum. -/
theorem scanStep_price (b : Best) (c : Cand) :
    (scanStep b c).price = max b.price c.price := by
  unfold scanStep
  by_cases h : b.price < c.price
  · rw [if_pos h]; exact (max_eq_right h.le).symm
  · rw [if_neg h]; exact (max_eq_left (not_lt.mp h)).symm

/-- If no candidate beats the running best, the fold is the identity. -/
theorem foldl_scanStep_fix :
    ∀ (l : List Cand) (b : Best), (∀ c ∈ l, c.price ≤ b.price) → l.foldl scanStep b = b := by
  intro l
  induction l with
  | nil => intro b _; rfl
  | cons c rest ih =>
    intro b hle
    rw [List.foldl_cons]
    have hstep : scanStep b c = b := by
      unfold scanStep
      rw [if_neg (not_lt.mpr (hle c (List.mem_cons_self c rest)))]
    rw [hstep]
    exact ih b (fun d hd => hle d (List.mem_cons_of_mem c hd))

/-- The fold's price is the fold of `max` over candidate prices. -/
theorem foldl_scanStep_price :
    ∀ (l : List Cand) (b : Best),
      (l.foldl scanStep b).price = l.foldl (fun a c => max a c.price) b.price := by
  intro l
  induction l with
  | nil => intro b; rfl
  | cons c rest ih =>
    intro b
    rw [List.foldl_cons, List.foldl_cons, ih, scanStep_price]

/-- The init value bounds the max fold from below. -/
theorem le_foldl_max :
    ∀ (l : List Cand) (a : ℚ), a ≤ l.foldl (fun a c => max a c.price) a := by
  intro l
  induction l with
  | nil => intro a; exact le_refl a
  | cons c rest ih =>
    intro a
    rw [List.foldl_cons]
    exact le_trans (le_max_left a c.price) (ih (max a c.price))

/-- Every member's price bounds the max fold from below. -/
theorem mem_le_foldl_max :
    ∀ (l : List Cand) (a : ℚ) (c : Cand), c ∈ l →
      c.price ≤ l.foldl (fun a c => max a c.price) a := by
  intro l
  induction l with
  | nil => intro a c hc; exact absurd hc (List.not_mem_nil c)
  | cons d rest ih =>
    intro a c hc
    rw [List.foldl_cons]
    rcases List.mem_cons.mp hc with he | ht
    · subst he
      exact le_trans (le_max_right a c.price) (le_foldl_max rest _)
    · exact ih _ c ht

/-- The max fold is the init value or an attained candidate price. -/
theorem foldl_max_cases :
    ∀ (l : List Cand) (a : ℚ),
      l.foldl (fun a c => max a c.price) a = a ∨
        ∃ c ∈ l, l.foldl (fun a c => max a c.price) a = c.price := by
  intro l
  induction l with
  | nil => intro a; exact Or.inl rfl
  | cons d rest ih =>
    intro a
    rw [List.foldl_cons]
    rcases ih (max a d.price) with h | ⟨c, hc, he⟩
    · rcases max_choice a d.price with hm | hm
      · exact Or.inl (by rw [h, hm])
      · exact Or.inr ⟨d, List.mem_cons_self d rest, by rw [h, hm]⟩
    · exact Or.inr ⟨c, List.mem_cons_of_mem d hc, he⟩

/-- If all candidate prices are below `M` and the init is below `M`, the max
fold stays below `M`. -/
theorem foldl_max_lt :
    ∀ (l : List Cand) (a M : ℚ), a < M → (∀ c ∈ l, c.price < M) →
      l.foldl (fun a c => max a c.price) a < M := by
  intro l
  induction l with
  | nil => intro a M ha _; exact ha
  | cons d rest ih =>
    intro a M ha hl
    rw [List.foldl_cons]
    exact ih _ M (max_lt ha (hl d (List.mem_cons_self d rest)))
      (fun c hc => hl c (List.mem_cons_of_mem d hc))

/-- When some candidate attains the overall bound `M` and the running best is
still below it, the fold ends exactly at an attaining candidate's record. -/
theorem foldl_scanStep_attains :
    ∀ (l : List Cand) (b : Best) (M : ℚ), b.price < M →
      (∀ c ∈ l, c.price ≤ M) → (∃ c ∈ l, c.price = M) →
      ∃ c ∈ l, c.price = M ∧ l.foldl scanStep b = candBest c := by
  intro l
  induction l with
  | nil => intro b M _ _ hex; exact absurd hex (by simp)
  | cons d rest ih =>
    intro b M hb hle hex
    by_cases hd : d.price = M
    · refine ⟨d, List.mem_cons_self d rest, hd, ?_⟩
      rw [List.foldl_cons]
      have hupd : scanStep b d = candBest d := by
        unfold scanStep
        rw [if_pos (by rw [hd]; exact hb)]
      rw [hupd]
      exact foldl_scanStep_fix rest (candBest d)
        (fun c hc => by
          show c.price ≤ d.price
          rw [hd]
          exact hle c (List.mem_cons_of_mem d hc))
    · have hdlt : d.price < M := lt_of_le_of_ne (hle d (List.mem_cons_self d rest)) hd
      have hb2 : (scanStep b d).price < M := by
        rw [scanStep_price]; exact max_lt hb hdlt
      have hex2 : ∃ c ∈ rest, c.price = M := by
        rcases hex with ⟨c, hc, hcM⟩
        rcases List.mem_cons.mp hc with he | ht
        · subst he; exact absurd hcM hd
        · exact ⟨c, ht, hcM⟩
      rcases ih (scanStep b d) M hb2 (fun c hc => hle c (List.mem_cons_of_mem d hc)) hex2
        with ⟨c, hc, hcM, heq⟩
      exact ⟨c, List.mem_cons_of_mem d hc, hcM, by rw [List.foldl_cons]; exact heq⟩

/-- Source-level attainment: the scan ends at a candidate of the earliest
listed source that attains the maximum `M`; all sources before it only
offer strictly smaller prices. -/
theorem foldl_scanPolicy_attains (model : String) (cat : Category) :
    ∀ (ps : List Policy) (b : Best) (M : ℚ), b.price < M →
      (∀ c ∈ ps.flatMap (candidatesOf model cat), c.price ≤ M) →
      (∃ c ∈ ps.flatMap (candidatesOf model cat), c.price = M) →
      ∃ ps₁ p ps₂, ps = ps₁ ++ p :: ps₂ ∧
        (∀ q ∈ ps₁, ∀ c ∈ candidatesOf model cat q, c.price < M) ∧
        ∃ c ∈ candidatesOf model cat p, c.price = M ∧
          ps.foldl (scanPolicy model cat) b = candBest c := by
  intro ps
  induction ps with
  | nil => intro b M _ _ hex; exact absurd hex (by simp)
  | cons p rest ih =>
    intro b M hb hle hex
    by_cases hp : ∃ c ∈ candidatesOf model cat p, c.price = M
    · rcases foldl_scanStep_attains (candidatesOf model cat p) b M hb
        (fun c hc => hle c (by rw [List.flatMap_cons]; exact List.mem_append_left _ hc)) hp
        with ⟨c, hc, hcM, heq⟩
      refine ⟨[], p, rest, rfl, by simp, c, hc, hcM, ?_⟩
      rw [List.foldl_cons, scanPolicy_eq, heq, foldl_scanPolicy_eq]
      apply foldl_scanStep_fix
      intro d hd
      show d.price ≤ c.price
      rw [hcM]
      exact hle d (by rw [List.flatMap_cons]; exact List.mem_append_right _ hd)
    · have hallp : ∀ c ∈ candidatesOf model cat p, c.price < M := by
        intro c hc
        exact lt_of_le_of_ne
          (hle c (by rw [List.flatMap_cons]; exact List.mem_append_left _ hc))
          (fun he => hp ⟨c, hc, he⟩)
      have hb2 : (scanPolicy model cat b p).price < M := by
        rw [scanPolicy_eq, foldl_scanStep_price]
        exact foldl_max_lt _ _ M hb hallp
      have hex2 : ∃ c ∈ rest.flatMap (candidatesOf model cat), c.price = M := by
        rcases hex with ⟨c, hc, hcM⟩
        rw [List.flatMap_cons] at hc
        rcases List.mem_append.mp hc with hl | hr
        · exact absurd hcM (fun he => hp ⟨c, hl, he⟩)
        · exact ⟨c, hr, hcM⟩
      rcases ih (scanPolicy model cat b p) M hb2
        (fun c hc => hle c (by rw [List.flatMap_cons]; exact List.mem_append_right _ hc)) hex2
        with ⟨ps₁, q, ps₂, hdec, hsmall, c, hc, hcM, heq⟩
      refine ⟨p :: ps₁, q, ps₂, by rw [hdec]; rfl, ?_, c, hc, hcM, ?_⟩
      · intro r hr
        rcases List.mem_cons.mp hr with he | ht
        · subst he; exact hallp
        · exact hsmall r ht
      · rw [List.foldl_cons]; exact heq

/-- Every candidate a source contributes carries that source's name and
colour. -/
theorem candidatesOf_fields (model : String) (cat : Category) (p : Policy) :
    ∀ c ∈ candidatesOf model cat p, c.pname = p.name ∧ c.color = p.colorHex := by
  intro c hc
  unfold candidatesOf at hc
  by_cases hg : model ∈ p.df.index ∧ ¬ (p.selectedModels ≠ [] ∧ model ∉ p.selectedModels)
  · rw [if_pos hg] at hc
    rcases List.mem_filterMap.mp hc with ⟨col, _, hcol⟩
    cases hloc : p.df.loc model col with
    | none =>
      simp only [candOfCol, hloc] at hcol
      exact absurd hcol (by simp)
    | some price =>
      simp only [candOfCol, hloc] at hcol
      by_cases hcat : catOf col = some cat
      · rw [if_pos hcat] at hcol
        cases hcol
        exact ⟨rfl, rfl⟩
      · rw [if_neg hcat] at hcol
        exact absurd hcol (by simp)
  · rw [if_neg hg] at hc
    exact absurd hc (List.not_mem_nil c)

/-! ### String order lemmas -/

/-- Lexicographic comparison is total. -/
theorem charsLe_total : ∀ a b : List Char, charsLe a b = true ∨ charsLe b a = true := by
  intro a
  induction a with
  | nil => intro b; exact Or.inl rfl
  | cons x xs ih =>
    intro b
    cases b with
    | nil => exact Or.inr rfl
    | cons y ys =>
      simp only [charsLe]
      by_cases hxy : x < y
      · exact Or.inl (by rw [if_pos hxy])
      · by_cases hyx : y < x
        · exact Or.inr (by rw [if_pos hyx])
        · rcases ih ys with h | h
          · exact Or.inl (by rw [if_neg hxy, if_neg hyx]; exact h)
          · exact Or.inr (by rw [if_neg hyx, if_neg hxy]; exact h)

/-- Lexicographic comparison is transitive. -/
theorem charsLe_trans :
    ∀ a b c : List Char, charsLe a b = true → charsLe b c = true → charsLe a c = true := by
  intro a
  induction a with
  | nil => intro b c _ _; rfl
  | cons x xs ih =>
    intro b c hab hbc
    cases b with
    | nil =>
      simp only [charsLe] at hab
      exact absurd hab (by decide)
    | cons y ys =>
      cases c with
      | nil =>
        simp only [charsLe] at hbc
        exact absurd hbc (by decide)
      | cons z zs =>
        simp only [charsLe] at hab hbc ⊢
        by_cases hxy : x < y
        · by_cases hyz : y < z
          · rw [if_pos (lt_trans hxy hyz)]
          · by_cases hzy : z < y
            · rw [if_neg hyz, if_pos hzy] at hbc
              exact absurd hbc (by decide)
            · have hyz2 : y = z := le_antisymm (not_lt.mp hzy) (not_lt.mp hyz)
              rw [if_pos (lt_of_lt_of_le hxy (le_of_eq hyz2))]
        · by_cases hyx : y < x
          · rw [if_neg hxy, if_pos hyx] at hab
            exact absurd hab (by decide)
          · have hxy2 : x = y := le_antisymm (not_lt.mp hyx) (not_lt.mp hxy)
            rw [if_neg hxy, if_neg hyx] at hab
            subst hxy2
            by_cases hyz : x < z
            · rw [if_pos hyz]
            · by_cases hzy : z < x
              · rw [if_neg hyz, if_pos hzy] at hbc
                exact absurd hbc (by decide)
              · rw [if_neg hyz, if_neg hzy] at hbc ⊢
                exact ih ys zs hab hbc

instance : IsTotal String strLePr := ⟨fun a b => charsLe_total a.data b.data⟩

instance : IsTrans String strLePr := ⟨fun a b c => charsLe_trans a.data b.data c.data⟩

/-! ### Merged model set lemmas -/

/-- Characterisation of one collected identifier. -/
theorem normModel_eq_some (idx m : String) :
    normModel idx = some m ↔
      m = strTrim idx ∧ m ≠ "" ∧ strLower m ∉ sentinelTokens := by
  simp only [normModel]
  by_cases h : strTrim idx ≠ "" ∧ strLower (strTrim idx) ∉ sentinelTokens
  · rw [if_pos h]
    constructor
    · intro he
      have hm : strTrim idx = m := by injection he
      subst hm
      exact ⟨rfl, h.1, h.2⟩
    · rintro ⟨hm, _, _⟩
      subst hm
      rfl
  · rw [if_neg h]
    constructor
    · intro he
      exact absurd he (by simp)
    · rintro ⟨hm, hne, hsent⟩
      subst hm
      exact absurd ⟨hne, hsent⟩ h

/-- Membership in the collected identifier multiset. -/
theorem mem_collectModels (ps : List Policy) (m : String) :
    m ∈ collectModels ps ↔
      ∃ p ∈ ps, ¬ frameEmpty p.df ∧ ∃ idx ∈ effectiveModelIds p, normModel idx = some m := by
  unfold collectModels
  rw [List.mem_flatMap]
  constructor
  · rintro ⟨p, hp, hm⟩
    by_cases hf : ¬ frameEmpty p.df
    · rw [if_pos hf] at hm
      rcases List.mem_filterMap.mp hm with ⟨idx, hidx, hn⟩
      exact ⟨p, hp, hf, idx, hidx, hn⟩
    · rw [if_neg hf] at hm
      exact absurd hm (List.not_mem_nil m)
  · rintro ⟨p, hp, hf, idx, hidx, hn⟩
    exact ⟨p, hp, by rw [if_pos hf]; exact List.mem_filterMap.mpr ⟨idx, hidx, hn⟩⟩

/-- Membership in the merged model list. -/
theorem mem_allModels (ps : List Policy) (m : String) :
    m ∈ allModels ps ↔
      ∃ p ∈ ps, ¬ frameEmpty p.df ∧ ∃ idx ∈ effectiveModelIds p, normModel idx = some m := by
  unfold allModels
  rw [(List.perm_insertionSort strLePr _).mem_iff, List.mem_filter, List.mem_dedup,
    mem_collectModels]
  constructor
  · rintro ⟨h, _⟩
    exact h
  · intro h
    refine ⟨h, ?_⟩
    rcases h with ⟨p, _, _, idx, _, hn⟩
    have hm := (normModel_eq_some idx m).mp hn
    simpa using hm.2.1

/-- The merged model list is sorted in code-point order. -/
theorem allModels_sorted (ps : List Policy) : (allModels ps).Sorted strLePr :=
  List.sorted_insertionSort strLePr _

/-- The merged model list has no duplicates. -/
theorem allModels_nodup (ps : List Policy) : (allModels ps).Nodup :=
  ((List.perm_insertionSort strLePr _).nodup_iff).mpr
    ((List.nodup_dedup (collectModels ps)).filter _)

/-! ### Offset map lemmas -/

/-- With pairwise distinct keys, `find?` by key returns the stored pair. -/
theorem find_key_unique :
    ∀ (l : List (String × String)) (k v : String), (l.map Prod.fst).Nodup → (k, v) ∈ l →
      l.find? (fun e => e.1 = k) = some (k, v) := by
  intro l
  induction l with
  | nil => intro k v _ hmem; exact absurd hmem (List.not_mem_nil _)
  | cons a rest ih =>
    intro k v hnd hmem
    rw [List.map_cons, List.nodup_cons] at hnd
    by_cases hk : a.1 = k
    · rcases List.mem_cons.mp hmem with he | ht
      · rw [List.find?_cons_of_pos _ (by simpa using hk)]
        rw [he]
      · exact absurd (by
          rw [hk]
          exact List.mem_map_of_mem Prod.fst ht) hnd.1
    · have hne : (k, v) ≠ a := fun he => hk (by rw [← he])
      rcases List.mem_cons.mp hmem with he | ht
      · exact absurd he hne
      · rw [List.find?_cons_of_neg _ (by simpa using hk)]
        exact ih k v hnd.2 ht

/-- The keys of `agency_adj_map` are the policy names in order. -/
theorem agencyAdjPairs_map_fst :
    ∀ (ps : List Policy) (k : Nat), (agencyAdjPairs k ps).map Prod.fst = ps.map Policy.name := by
  intro ps
  induction ps with
  | nil => intro k; rfl
  | cons p rest ih =>
    intro k
    simp only [agencyAdjPairs, List.map_cons]
    rw [ih]

/-- Each policy's own (name, offset-cell) pair is in the map. -/
theorem agencyAdjPairs_mem :
    ∀ (ps : List Policy) (k i : Nat) (p : Policy), ps[i]? = some p →
      (p.name, cellRefOfCol (k + i)) ∈ agencyAdjPairs k ps := by
  intro ps
  induction ps with
  | nil => intro k i p h; simp at h
  | cons q rest ih =>
    intro k i p h
    cases i with
    | zero =>
      have hq : q = p := by simpa using h
      subst hq
      simp [agencyAdjPairs]
    | succ i =>
      have h2 := ih (k + 1) i p (by simpa using h)
      have harith : k + (i + 1) = (k + 1) + i := by omega
      rw [harith]
      exact List.mem_cons_of_mem _ h2

/-- With distinct source names, the dict lookup finds each policy's own
offset cell. -/
theorem adjLookup_eq (ps : List Policy) (i : Nat) (p : Policy)
    (hnd : (ps.map Policy.name).Nodup) (hi : ps[i]? = some p) :
    adjLookup ps p.name = some (cellRefOfCol (2 + i)) := by
  unfold adjLookup
  have hmem : (p.name, cellRefOfCol (2 + i)) ∈ (agencyAdjPairs 2 ps).reverse :=
    List.mem_reverse.mpr (agencyAdjPairs_mem ps 2 i p hi)
  have hndr : ((agencyAdjPairs 2 ps).reverse.map Prod.fst).Nodup := by
    rw [List.map_reverse, List.nodup_reverse, agencyAdjPairs_map_fst]
    exact hnd
  rw [find_key_unique _ _ _ hndr hmem]
  rfl

/-- Each policy's header triple sits at its own position. -/
theorem agencyHeaderRows_get :
    ∀ (ps : List Policy) (k i : Nat) (p : Policy), ps[i]? = some p →
      (agencyHeaderRows k ps)[i]? = some (p.name, 0, cellRefOfCol (k + i)) := by
  intro ps
  induction ps with
  | nil => intro k i p h; simp at h
  | cons q rest ih =>
    intro k i p h
    cases i with
    | zero =>
      have hq : q = p := by simpa using h
      subst hq
      simp [agencyHeaderRows]
    | succ i =>
      have h2 := ih (k + 1) i p (by simpa using h)
      have harith : k + (i + 1) = (k + 1) + i := by omega
      rw [harith]
      simpa [agencyHeaderRows] using h2

/-! ### Plan-label split lemmas -/

/-- Splitting never yields the empty part list. -/
theorem splitOnChar_ne_nil (c : Char) : ∀ l, splitOnChar c l ≠ [] := by
  intro l
  cases l with
  | nil => simp [splitOnChar]
  | cons x xs =>
    simp only [splitOnChar]
    by_cases h : x = c
    · rw [if_pos h]
      simp
    · rw [if_neg h]
      cases hs : splitOnChar c xs <;> simp

/-- A list without the separator splits into itself alone. -/
theorem splitOnChar_no_sep (c : Char) : ∀ l, c ∉ l → splitOnChar c l = [l] := by
  intro l
  induction l with
  | nil => intro _; rfl
  | cons x xs ih =>
    intro hn
    rw [List.mem_cons] at hn
    push_neg at hn
    obtain ⟨hcx, hcxs⟩ := hn
    simp only [splitOnChar]
    rw [if_neg (fun he => hcx he.symm), ih hcxs]

/-- A list containing the separator splits into at least two parts. -/
theorem splitOnChar_length_two (c : Char) : ∀ l, c ∈ l → 2 ≤ (splitOnChar c l).length := by
  intro l
  induction l with
  | nil => intro h; exact absurd h (List.not_mem_nil c)
  | cons x xs ih =>
    intro h
    simp only [splitOnChar]
    by_cases hx : x = c
    · rw [if_pos hx]
      have h1 : 1 ≤ (splitOnChar c xs).length :=
        List.length_pos.mpr (splitOnChar_ne_nil c xs)
      simp only [List.length_cons]
      omega
    · rw [if_neg hx]
      have hc : c ∈ xs := by
        rcases List.mem_cons.mp h with he | ht
        · exact absurd he.symm hx
        · exact ht
      have h2 := ih hc
      cases hs : splitOnChar c xs with
      | nil => exact absurd hs (splitOnChar_ne_nil c xs)
      | cons hd tl =>
        rw [hs] at h2
        simp only [List.length_cons] at h2 ⊢
        omega

/-- `getLastD` ignores its default on nonempty lists. -/
theorem getLastD_of_ne_nil {α : Type} :
    ∀ (l : List α), l ≠ [] → ∀ (a b : α), l.getLastD a = l.getLastD b := by
  intro l
  induction l with
  | nil => intro h; exact absurd rfl h
  | cons x xs ih =>
    intro _ a b
    cases xs with
    | nil => rfl
    | cons y ys =>
      simp only [List.getLastD_cons]

/-- The last part of the split at a separator is the suffix after the last
occurrence of that separator. -/
theorem splitOnChar_last (c : Char) :
    ∀ (pre post : List Char), c ∉ post →
      (splitOnChar c (pre ++ c :: post)).getLastD [] = post := by
  intro pre
  induction pre with
  | nil =>
    intro post hn
    simp only [List.nil_append, splitOnChar, if_pos rfl]
    rw [splitOnChar_no_sep c post hn]
    rfl
  | cons x pre2 ih =>
    intro post hn
    have hcin : c ∈ pre2 ++ c :: post :=
      List.mem_append_right _ (List.mem_cons_self c post)
    simp only [List.cons_append, splitOnChar]
    by_cases hx : x = c
    · rw [if_pos hx, List.getLastD_cons]
      exact ih post hn
    · rw [if_neg hx]
      cases hs : splitOnChar c (pre2 ++ c :: post) with
      | nil => exact absurd hs (splitOnChar_ne_nil c _)
      | cons hd tl =>
        have h2 := splitOnChar_length_two c _ hcin
        rw [hs] at h2
        have htl : tl ≠ [] := by
          intro he
          rw [he] at h2
          simp at h2
        have hprev := ih post hn
        rw [hs, List.getLastD_cons] at hprev
        rw [List.getLastD_cons, getLastD_of_ne_nil tl htl (x :: hd) hd]
        exact hprev

/-! ### Notes lemmas -/

/-- The notes lines are those of the sources with nonempty footer text, in
input order. -/
theorem notesOf_eq_filter (ps : List Policy) :
    notesOf ps = (ps.filter (fun p => p.footerText ≠ "")).map
      (fun p => "■ " ++ p.name ++ ": " ++ p.footerText) := by
  induction ps with
  | nil => rfl
  | cons p rest ih =>
    by_cases h : p.footerText ≠ ""
    · simp only [notesOf, List.filterMap_cons, if_pos h]
      rw [List.filter_cons_of_pos (by simpa using h), List.map_cons]
      exact congrArg _ ih
    · simp only [notesOf, List.filterMap_cons, if_neg h]
      rw [List.filter_cons_of_neg (by simpa using h)]
      exact ih

/-! ### Concrete inputs used by witnesses and counterexamples -/

/-- Cell lookup of a concrete grid given as (model, column, price) triples. -/
def gridOf (entries : List (String × String × ℚ)) : String → String → Option ℚ :=
  fun m c => (entries.find? (fun e => e.1 = m ∧ e.2.1 = c)).map (fun e => e.2.2)

/-- Source with a single 공시 MNP price that is of a category other than the
one probed in the C2 witness. -/
def pC2 : Policy :=
  { name := "A", colorHex := "#AABBCC",
    df := { index := ["M"], cols := ["I|공시 MNP(P)"],
            loc := gridOf [("M", "I|공시 MNP(P)", 50)] },
    selectedModels := [], selectedColumns := [], footerText := "" }

/-- Source whose only column has an acquisition keyword but no contract
keyword. -/
def pC6 : Policy :=
  { name := "A", colorHex := "#AABBCC",
    df := { index := ["M"], cols := ["I|MNP(Plan)"],
            loc := gridOf [("M", "I|MNP(Plan)", 100)] },
    selectedModels := [], selectedColumns := [], footerText := "" }

/-- Source whose only valid price is -5, i.e. at or below the sentinel. -/
def pC7 : Policy :=
  { name := "A", colorHex := "#AABBCC",
    df := { index := ["M"], cols := ["I|공시 MNP(P)"],
            loc := gridOf [("M", "I|공시 MNP(P)", -5)] },
    selectedModels := [], selectedColumns := [], footerText := "" }

/-- Source named "B" with notes, supplied first. -/
def pB8 : Policy :=
  { name := "B", colorHex := "#AAAAAA",
    df := { index := [], cols := [], loc := fun _ _ => none },
    selectedModels := [], selectedColumns := [], footerText := "b-notes" }

/-- Source named "A" with notes, supplied second. -/
def pA8 : Policy :=
  { name := "A", colorHex := "#BBBBBB",
    df := { index := [], cols := [], loc := fun _ _ => none },
    selectedModels := [], selectedColumns := [], footerText := "a-notes" }

/-! ### Claim theorems -/

/-- C2: for every model/category pair with zero valid numeric prices across
all included sources, the cell is recorded as absent and rendered as an
explicit empty marker (empty price and plan cells, no colour tag), never
as a rendered zero and never as the sentinel -1. -/
theorem c2_absent_cell (ps : List Policy) (model : String) (cat : Category)
    (h : candidates ps model cat = []) :
    bestFor ps model cat = initBest ∧
    mergedCellFor ps model cat =
      { price := PriceCell.empty, plan := "", fill := none } ∧
    (∀ q : ℚ, (mergedCellFor ps model cat).price ≠ PriceCell.lit q) ∧
    (∀ (q : ℚ) (r : String), (mergedCellFor ps model cat).price ≠ PriceCell.formula q r) := by
  have hb : bestFor ps model cat = initBest := by
    rw [bestFor_eq, h]
    rfl
  have hcell : mergedCellFor ps model cat =
      { price := PriceCell.empty, plan := "", fill := none } := by
    unfold mergedCellFor renderCell
    rw [hb, if_neg (fun hne => hne rfl)]
  refine ⟨hb, hcell, ?_, ?_⟩
  · intro q
    rw [hcell]
    exact fun he => PriceCell.noConfusion he
  · intro q r
    rw [hcell]
    exact fun he => PriceCell.noConfusion he

/-- C2 witness: a pair with data in another category only. -/
theorem c2_absent_cell_witness :
    bestFor [pC2] "M" Category.seonyakMNP = initBest ∧
    mergedCellFor [pC2] "M" Category.seonyakMNP =
      { price := PriceCell.empty, plan := "", fill := none } ∧
    (∀ q : ℚ, (mergedCellFor [pC2] "M" Category.seonyakMNP).price ≠ PriceCell.lit q) ∧
    (∀ (q : ℚ) (r : String),
      (mergedCellFor [pC2] "M" Category.seonyakMNP).price ≠ PriceCell.formula q r) :=
  c2_absent_cell [pC2] "M" Category.seonyakMNP (by decide)

/-- C6 counterexample: a column "I|MNP(Plan)" with no contract-type keyword
holds the only valid price (100), yet the PUBLIC_SUBSIDY×MNP cell stays
absent — the column is dropped, not defaulted to PUBLIC_SUBSIDY. -/
theorem c6_counterexample :
    pC6.df.loc "M" "I|MNP(Plan)" = some 100 ∧
    "I|MNP(Plan)" ∈ colsToScan pC6 ∧
    candidates [pC6] "M" Category.gongsiMNP = [] ∧
    bestFor [pC6] "M" Category.gongsiMNP = initBest ∧
    mergedCellFor [pC6] "M" Category.gongsiMNP =
      { price := PriceCell.empty, plan := "", fill := none } := by decide

/-- C6 (amended): a column descriptor containing neither the public-subsidy
keyword "공시" nor the select-commitment keyword "선약" is classified into
no category at all: the reconciliation scan skips it entirely, for every
source, model, category and running best.  (No PUBLIC_SUBSIDY default is
applied at reconciliation time; the default lives in the upstream
extraction prompt.) -/
theorem c6_no_default (col : String)
    (h1 : hasSub "공시" col = false) (h2 : hasSub "선약" col = false) :
    catOf col = none ∧
    (∀ (p : Policy) (model : String) (cat : Category),
      candOfCol p model cat col = none) ∧
    (∀ (p : Policy) (model : String) (cat : Category) (b : Best),
      scanCol p model cat b col = b) := by
  have hcat : catOf col = none := by
    simp [catOf, h1, h2]
  refine ⟨hcat, ?_, ?_⟩
  · intro p model cat
    cases hloc : p.df.loc model col with
    | none => simp [candOfCol, hloc]
    | some price => simp [candOfCol, hloc, hcat]
  · intro p model cat b
    cases hloc : p.df.loc model col with
    | none => simp [scanCol, hloc]
    | some price => simp [scanCol, hloc, hcat]

/-- C6 witness: the keyword-free column of `pC6` evaluated concretely. -/
theorem c6_no_default_witness :
    catOf "I|MNP(Plan)" = none ∧
    candOfCol pC6 "M" Category.gongsiMNP "I|MNP(Plan)" = none ∧
    scanCol pC6 "M" Category.gongsiMNP initBest "I|MNP(Plan)" = initBest :=
  ⟨(c6_no_default "I|MNP(Plan)" (by decide) (by decide)).1,
   (c6_no_default "I|MNP(Plan)" (by decide) (by decide)).2.1 pC6 "M" Category.gongsiMNP,
   (c6_no_default "I|MNP(Plan)" (by decide) (by decide)).2.2 pC6 "M" Category.gongsiMNP initBest⟩

/-- C7: -1 is the internal no-winner sentinel: the recorded best is either
still the initial slot or has price strictly above -1 (so a candidate
price of -1 or lower never wins), and when every valid price of the pair
is ≤ -1 the slot stays initial and the cell renders absent. -/
theorem c7_sentinel (ps : List Policy) (model : String) (cat : Category) :
    (bestFor ps model cat = initBest ∨ -1 < (bestFor ps model cat).price) ∧
    ((∀ c ∈ candidates ps model cat, c.price ≤ -1) →
      bestFor ps model cat = initBest ∧
      mergedCellFor ps model cat =
        { price := PriceCell.empty, plan := "", fill := none }) := by
  constructor
  · rw [bestFor_eq]
    have hinv : ∀ (l : List Cand) (b : Best), (b = initBest ∨ -1 < b.price) →
        (l.foldl scanStep b = initBest ∨ -1 < (l.foldl scanStep b).price) := by
      intro l
      induction l with
      | nil => intro b hb; exact hb
      | cons c rest ihl =>
        intro b hb
        rw [List.foldl_cons]
        apply ihl
        unfold scanStep
        by_cases hlt : b.price < c.price
        · rw [if_pos hlt]
          right
          show -1 < c.price
          rcases hb with he | hgt
          · rw [he] at hlt
            exact hlt
          · exact lt_trans hgt hlt
        · rw [if_neg hlt]
          exact hb
    exact hinv _ initBest (Or.inl rfl)
  · intro hall
    have hb : bestFor ps model cat = initBest := by
      rw [bestFor_eq]
      exact foldl_scanStep_fix _ initBest (fun c hc => hall c hc)
    refine ⟨hb, ?_⟩
    unfold mergedCellFor renderCell
    rw [hb, if_neg (fun hne => hne rfl)]

/-- C7 witness: a source whose only valid price is -5 yields an absent cell. -/
theorem c7_sentinel_witness :
    (bestFor [pC7] "M" Category.gongsiMNP = initBest ∨
      -1 < (bestFor [pC7] "M" Category.gongsiMNP).price) ∧
    (bestFor [pC7] "M" Category.gongsiMNP = initBest ∧
      mergedCellFor [pC7] "M" Category.gongsiMNP =
        { price := PriceCell.empty, plan := "", fill := none }) :=
  ⟨(c7_sentinel [pC7] "M" Category.gongsiMNP).1,
   (c7_sentinel [pC7] "M" Category.gongsiMNP).2 (by decide)⟩

/-- C8 counterexample: with sources supplied in the order B, A the notes
lines come out in input order B, A — not sorted by source name as the
claim states. -/
theorem c8_counterexample :
    notesOf [pB8, pA8] = ["■ B: b-notes", "■ A: a-notes"] ∧
    notesByName [pB8, pA8] = ["■ A: a-notes", "■ B: b-notes"] ∧
    notesOf [pB8, pA8] ≠ notesByName [pB8, pA8] := by decide

/-- C8 (amended): the consolidated notes section lists the notes of every
source having nonempty notes, in the order the sources were supplied. -/
theorem c8_notes_input_order (ps : List Policy) :
    notesOf ps = (ps.filter (fun p => p.footerText ≠ "")).map
      (fun p => "■ " ++ p.name ++ ": " ++ p.footerText) ∧
    ∀ p ∈ ps, p.footerText ≠ "" → ("■ " ++ p.name ++ ": " ++ p.footerText) ∈ notesOf ps := by
  refine ⟨notesOf_eq_filter ps, ?_⟩
  intro p hp hne
  rw [notesOf_eq_filter]
  exact List.mem_map_of_mem _ (List.mem_filter.mpr ⟨hp, by simpa using hne⟩)

/-- C8 witness: the amended statement evaluated on the B, A pair. -/
theorem c8_notes_input_order_witness :
    notesOf [pB8, pA8] = ([pB8, pA8].filter (fun p => p.footerText ≠ "")).map
      (fun p => "■ " ++ p.name ++ ": " ++ p.footerText) ∧
    ("■ " ++ pB8.name ++ ": " ++ pB8.footerText) ∈ notesOf [pB8, pA8] :=
  ⟨(c8_notes_input_order [pB8, pA8]).1,
   (c8_notes_input_order [pB8, pA8]).2 pB8 (List.mem_cons_self pB8 [pA8]) (by decide)⟩

/-- C9: the build is deterministic and idempotent and mutates no source: the
state-threaded run returns the untouched source list together with the
pure document, and re-running on the returned state gives the identical
document. -/
theorem c9_pure_idempotent (ps : List Policy) :
    createBattleRun ps = (createBattleExcel ps, ps) ∧
    (createBattleRun ((createBattleRun ps).2)).1 = (createBattleRun ps).1 :=
  ⟨rfl, rfl⟩

/-- C10: for a winning column whose name contains "(" and ")", the recorded
plan label is the substring after the last "(" with every ")" removed; in
particular the canonical plan "5GX 프리미엄(T우주)" produced by the
normaliser yields the label "T우주", not the full plan name. -/
theorem c10_plan_label (col : String) (pre post : List Char)
    (hdec : col.data = pre ++ '(' :: post) (hnp : '(' ∉ post) (hcp : ')' ∈ col.data) :
    planOf col = String.mk (post.filter (fun ch => ch ≠ ')')) ∧
    planOf (mkColumnName "I" "공시 MNP" "T우주") = "T우주" := by
  constructor
  · unfold planOf
    have hop : '(' ∈ col.data := by
      rw [hdec]
      exact List.mem_append_right _ (List.mem_cons_self _ _)
    rw [if_pos ⟨hop, hcp⟩, hdec, splitOnChar_last '(' pre post hnp]
  · decide

/-- C10 witness: the label of "a(b)" and of the normalised T우주 column. -/
theorem c10_plan_label_witness :
    planOf "a(b)" = String.mk (['b', ')'].filter (fun ch => ch ≠ ')')) ∧
    planOf (mkColumnName "I" "공시 MNP" "T우주") = "T우주" :=
  c10_plan_label "a(b)" ['a'] ['b', ')'] (by decide) (by decide) (by decide)

/-- Source whose only valid price is exactly the sentinel value -1. -/
def pC1 : Policy :=
  { name := "A", colorHex := "#AABBCC",
    df := { index := ["M"], cols := ["I|공시 MNP(P)"],
            loc := gridOf [("M", "I|공시 MNP(P)", -1)] },
    selectedModels := [], selectedColumns := [], footerText := "" }

/-- C1 counterexample: the pair has a valid numeric price (-1), so the claim
requires the cell to record price -1 with the first source as winner; the
code records no winner at all (the slot never leaves its initial state)
because the update compares against the sentinel-initialised best. -/
theorem c1_counterexample :
    candidates [pC1] "M" Category.gongsiMNP =
      [{ price := -1, plan := "P", color := "#AABBCC", pname := "A" }] ∧
    bestFor [pC1] "M" Category.gongsiMNP = initBest ∧
    (bestFor [pC1] "M" Category.gongsiMNP).pname = none := by decide

/-- C1 (amended): for every model/category pair with at least one valid
numeric price strictly greater than -1 across the included sources, the
scan records the maximum valid price, and the winner is the earliest
listed source achieving that maximum — every earlier source offers only
strictly smaller prices, so on an exact tie the first source in input
order keeps the win (the update uses strict greater-than). -/
theorem c1_max_first_source (ps : List Policy) (model : String) (cat : Category)
    (hex : ∃ c ∈ candidates ps model cat, -1 < c.price) :
    ∃ M : ℚ,
      (bestFor ps model cat).price = M ∧
      (∀ c ∈ candidates ps model cat, c.price ≤ M) ∧
      (∃ c ∈ candidates ps model cat, c.price = M) ∧
      ∃ ps₁ p ps₂, ps = ps₁ ++ p :: ps₂ ∧
        (∀ q ∈ ps₁, ∀ c ∈ candidatesOf model cat q, c.price < M) ∧
        (∃ c ∈ candidatesOf model cat p, c.price = M) ∧
        (bestFor ps model cat).pname = some p.name := by
  obtain ⟨c0, hc0, hc0p⟩ := hex
  have hMle : ∀ c ∈ candidates ps model cat, c.price ≤
      (candidates ps model cat).foldl (fun a c => max a c.price) (-1) :=
    fun c hc => mem_le_foldl_max _ _ c hc
  have hMgt : (-1 : ℚ) <
      (candidates ps model cat).foldl (fun a c => max a c.price) (-1) :=
    lt_of_lt_of_le hc0p (hMle c0 hc0)
  have hMatt : ∃ c ∈ candidates ps model cat,
      c.price = (candidates ps model cat).foldl (fun a c => max a c.price) (-1) := by
    rcases foldl_max_cases (candidates ps model cat) (-1) with h | h
    · rw [h] at hMgt
      exact absurd hMgt (lt_irrefl (-1))
    · rcases h with ⟨c, hc, he⟩
      exact ⟨c, hc, he.symm⟩
  obtain ⟨ps₁, p, ps₂, hsplit, hsmall, c, hc, hcM, heq⟩ :=
    foldl_scanPolicy_attains model cat ps initBest _ hMgt hMle hMatt
  refine ⟨_, ?_, hMle, hMatt, ps₁, p, ps₂, hsplit, hsmall, ⟨c, hc, hcM⟩, ?_⟩
  · rw [bestFor_eq, foldl_scanStep_price]
    rfl
  · have hpn := (candidatesOf_fields model cat p c hc).1
    show (ps.foldl (scanPolicy model cat) initBest).pname = some p.name
    rw [heq]
    show some c.pname = some p.name
    rw [hpn]

/-- Sources for the C1 witness: the first-listed source A and the later
source B both offer exactly 70 for the same pair (the tie scenario of the
specification). -/
def pC1A : Policy :=
  { name := "A", colorHex := "#ABCDEF",
    df := { index := ["M"], cols := ["X|공시 MNP(Pa)"],
            loc := gridOf [("M", "X|공시 MNP(Pa)", 70)] },
    selectedModels := [], selectedColumns := [], footerText := "" }

/-- Second source of the C1 witness tie. -/
def pC1B : Policy :=
  { name := "B", colorHex := "#FEDCBA",
    df := { index := ["M"], cols := ["Y|공시 MNP(Pb)"],
            loc := gridOf [("M", "Y|공시 MNP(Pb)", 70)] },
    selectedModels := [], selectedColumns := [], footerText := "" }

/-- C1 witness: the amended statement instantiated at the exact tie. -/
theorem c1_max_first_source_witness :
    ∃ M : ℚ,
      (bestFor [pC1A, pC1B] "M" Category.gongsiMNP).price = M ∧
      (∀ c ∈ candidates [pC1A, pC1B] "M" Category.gongsiMNP, c.price ≤ M) ∧
      (∃ c ∈ candidates [pC1A, pC1B] "M" Category.gongsiMNP, c.price = M) ∧
      ∃ ps₁ p ps₂, [pC1A, pC1B] = ps₁ ++ p :: ps₂ ∧
        (∀ q ∈ ps₁, ∀ c ∈ candidatesOf "M" Category.gongsiMNP q, c.price < M) ∧
        (∃ c ∈ candidatesOf "M" Category.gongsiMNP p, c.price = M) ∧
        (bestFor [pC1A, pC1B] "M" Category.gongsiMNP).pname = some p.name :=
  c1_max_first_source [pC1A, pC1B] "M" Category.gongsiMNP (by decide)

/-- Source whose index has an identifier with surrounding whitespace. -/
def pC3 : Policy :=
  { name := "A", colorHex := "#ABCDEF",
    df := { index := [" M "], cols := ["X"], loc := fun _ _ => none },
    selectedModels := [], selectedColumns := [], footerText := "" }

/-- Source whose frame has an index entry but zero price columns: pandas
`df.empty` is then true (an axis of length 0), so the collection loop's
`not p.df.empty` guard skips the whole source. -/
def pC3E : Policy :=
  { name := "E", colorHex := "#ABCDEF",
    df := { index := ["N"], cols := [], loc := fun _ _ => none },
    selectedModels := [], selectedColumns := [], footerText := "" }

/-- C3 counterexample, in two parts.  First: the effective identifier " M "
is neither empty nor a sentinel, so the claim requires it in the merged
set verbatim; the code strips it and the merged set holds "M" instead.
Second: the clean effective identifier "N" of a source whose frame has a
row but no price columns never reaches the merged set at all, because the
`df.empty` guard skips that source before its identifiers are collected. -/
theorem c3_counterexample :
    (allModels [pC3] = ["M"] ∧
      " M " ∈ effectiveModelIds pC3 ∧
      ¬ frameEmpty pC3.df ∧
      " M " ≠ "" ∧
      strLower " M " ∉ sentinelTokens ∧
      " M " ∉ allModels [pC3]) ∧
    (allModels [pC3E] = [] ∧
      "N" ∈ effectiveModelIds pC3E ∧
      "N" = strTrim "N" ∧
      "N" ≠ "" ∧
      strLower "N" ∉ sentinelTokens ∧
      "N" ∉ allModels [pC3E]) := by decide

/-- C3 (amended): the merged model list is sorted ascending in case-sensitive
code-point order, has no duplicates, and contains exactly the
whitespace-stripped effective identifiers of the sources with nonempty
frames (pandas `df.empty` skips a source with no rows or no price
columns), excluding identifiers that strip to the empty string or (case
insensitively) to one of the sentinel tokens. -/
theorem c3_merged_model_set (ps : List Policy) :
    (allModels ps).Sorted strLePr ∧
    (allModels ps).Nodup ∧
    ∀ m, m ∈ allModels ps ↔
      ∃ p ∈ ps, ¬ frameEmpty p.df ∧ ∃ idx ∈ effectiveModelIds p,
        m = strTrim idx ∧ m ≠ "" ∧ strLower m ∉ sentinelTokens := by
  refine ⟨allModels_sorted ps, allModels_nodup ps, ?_⟩
  intro m
  rw [mem_allModels]
  constructor
  · rintro ⟨p, hp, hf, idx, hidx, hn⟩
    exact ⟨p, hp, hf, idx, hidx, (normModel_eq_some idx m).mp hn⟩
  · rintro ⟨p, hp, hf, idx, hidx, hrest⟩
    exact ⟨p, hp, hf, idx, hidx, (normModel_eq_some idx m).mpr hrest⟩

/-- Source that lists models M and X but whose review filter keeps only X. -/
def pC4A : Policy :=
  { name := "A", colorHex := "#ABCDEF",
    df := { index := ["M", "X"], cols := ["A|공시 MNP(P)"],
            loc := gridOf [("M", "A|공시 MNP(P)", 50), ("X", "A|공시 MNP(P)", 60)] },
    selectedModels := ["X"], selectedColumns := [], footerText := "" }

/-- Source with unset filters that still lists model M. -/
def pC4B : Policy :=
  { name := "B", colorHex := "#FEDCBA",
    df := { index := ["M"], cols := ["B|공시 MNP(P)"],
            loc := gridOf [("M", "B|공시 MNP(P)", 40)] },
    selectedModels := [], selectedColumns := [], footerText := "" }

/-- Source that excludes model N through its filter although N has a valid
price in its grid. -/
def pC4X : Policy :=
  { name := "X1", colorHex := "#ABCDEF",
    df := { index := ["N", "X"], cols := ["A|공시 MNP(P)"],
            loc := gridOf [("N", "A|공시 MNP(P)", 50), ("X", "A|공시 MNP(P)", 60)] },
    selectedModels := ["X"], selectedColumns := [], footerText := "" }

/-- Source that still lists model N (unfiltered index entry) but has zero
price columns, so pandas `df.empty` is true and the collection loop skips
it. -/
def pC4E : Policy :=
  { name := "E1", colorHex := "#FEDCBA",
    df := { index := ["N"], cols := [], loc := fun _ _ => none },
    selectedModels := [], selectedColumns := [], footerText := "" }

/-- Source that excludes the whitespace identifier " M " through its filter. -/
def pC4WA : Policy :=
  { name := "W1", colorHex := "#ABCDEF",
    df := { index := [" M ", "X"], cols := ["A|공시 MNP(P)"],
            loc := gridOf [(" M ", "A|공시 MNP(P)", 50), ("X", "A|공시 MNP(P)", 60)] },
    selectedModels := ["X"], selectedColumns := [], footerText := "" }

/-- Source with a nonempty frame that still lists " M " effectively. -/
def pC4WB : Policy :=
  { name := "W2", colorHex := "#FEDCBA",
    df := { index := [" M "], cols := ["B|공시 MNP(P)"],
            loc := gridOf [(" M ", "B|공시 MNP(P)", 40)] },
    selectedModels := [], selectedColumns := [], footerText := "" }

/-- C4 counterexample, in two parts.  First: model N is excluded from source
X1's filter, and the other included source E1 still lists N — yet N drops
out of the merged model set, because E1's frame has no price columns and
the `df.empty` guard skips it during collection.  Second: the identifier
" M " is excluded from source W1's filter and still listed by source W2
with a nonempty frame — yet " M " as written drops out of the merged set,
which only receives its stripped form "M". -/
theorem c4_counterexample :
    (pC4X.selectedModels ≠ [] ∧
      "N" ∉ pC4X.selectedModels ∧
      "N" ∈ pC4X.df.index ∧
      pC4X.df.loc "N" "A|공시 MNP(P)" = some 50 ∧
      "N" ∈ effectiveModelIds pC4E ∧
      "N" ∉ allModels [pC4X, pC4E] ∧
      allModels [pC4X, pC4E] = ["X"]) ∧
    (pC4WA.selectedModels ≠ [] ∧
      " M " ∉ pC4WA.selectedModels ∧
      " M " ∈ effectiveModelIds pC4WB ∧
      ¬ frameEmpty pC4WB.df ∧
      " M " ∉ allModels [pC4WA, pC4WB] ∧
      allModels [pC4WA, pC4WB] = ["M", "X"]) := by decide

/-- C4 (amended): an empty/unset `selectedModels` (resp. `selectedColumns`)
filter means all of that source's rows (resp. columns) participate; a
source whose nonempty filter excludes the model contributes no candidates
and leaves the running best untouched; and the model still reaches the
merged model set through any other included source that lists it
effectively, provided that source's frame is nonempty (at least one row
and one price column — pandas `df.empty` skips the rest) and the
identifier is whitespace-trim-invariant, nonempty and not a sentinel
token. -/
theorem c4_filters (p0 p q : Policy) (ps : List Policy) (model : String) (cat : Category)
    (h1 : p0.selectedModels = []) (h2 : p0.selectedColumns = [])
    (h3 : p.selectedModels ≠ []) (h4 : model ∉ p.selectedModels)
    (h5 : q ∈ ps) (h6 : ¬ frameEmpty q.df)
    (h7 : model ∈ effectiveModelIds q)
    (h8 : strTrim model = model) (h9 : model ≠ "")
    (h10 : strLower model ∉ sentinelTokens) :
    effectiveModelIds p0 = p0.df.index ∧
    colsToScan p0 = p0.df.cols ∧
    candidatesOf model cat p = [] ∧
    (∀ b, scanPolicy model cat b p = b) ∧
    model ∈ allModels ps := by
  refine ⟨?_, ?_, ?_, ?_, ?_⟩
  · unfold effectiveModelIds
    rw [if_pos h1]
  · unfold colsToScan
    rw [if_pos h2]
  · unfold candidatesOf
    rw [if_neg (fun hcon => hcon.2 ⟨h3, h4⟩)]
  · intro b
    unfold scanPolicy
    by_cases hidx : model ∈ p.df.index
    · rw [if_pos hidx, if_pos ⟨h3, h4⟩]
    · rw [if_neg hidx]
  · rw [mem_allModels]
    exact ⟨q, h5, h6, model, h7, (normModel_eq_some model model).mpr ⟨h8.symm, h9, h10⟩⟩

/-- C4 witness: M is filtered out of source A yet still merged via B. -/
theorem c4_filters_witness :
    effectiveModelIds pC4B = pC4B.df.index ∧
    colsToScan pC4B = pC4B.df.cols ∧
    candidatesOf "M" Category.gongsiMNP pC4A = [] ∧
    (∀ b, scanPolicy "M" Category.gongsiMNP b pC4A = b) ∧
    "M" ∈ allModels [pC4A, pC4B] :=
  c4_filters pC4B pC4A pC4B [pC4A, pC4B] "M" Category.gongsiMNP
    (by decide) (by decide) (by decide) (by decide)
    (List.mem_cons_of_mem pC4A (List.mem_cons_self pC4B []))
    (by decide) (by decide) (by decide) (by decide) (by decide)

/-- Source with the empty string as its name, winning its only pair. -/
def pC5 : Policy :=
  { name := "", colorHex := "#ABCDEF",
    df := { index := ["M"], cols := ["E|공시 MNP(P)"],
            loc := gridOf [("M", "E|공시 MNP(P)", 100)] },
    selectedModels := [], selectedColumns := [], footerText := "" }

/-- C5 counterexample: the empty-named source wins the pair, yet its merged
price cell is written as the literal 100 rather than as an additive
formula — the falsy name fails the `if p_name and p_name in
agency_adj_map` guard. -/
theorem c5_counterexample :
    ([pC5].map Policy.name).Nodup ∧
    (bestFor [pC5] "M" Category.gongsiMNP).price = 100 ∧
    (bestFor [pC5] "M" Category.gongsiMNP).pname = some "" ∧
    (mergedCellFor [pC5] "M" Category.gongsiMNP).price = PriceCell.lit 100 := by decide

/-- C5 (amended): with pairwise distinct source names (the data-model
invariant), every source gets its own header triple (name, offset 0,
offset-cell reference) at its own column, the document's header is that
row list, and every winning merged price cell whose winning source has a
nonempty name is written as the additive formula referencing the winning
source's own offset cell. -/
theorem c5_offset_formula (ps : List Policy) (i : Nat) (p : Policy)
    (model : String) (cat : Category)
    (hnd : (ps.map Policy.name).Nodup) (hi : ps[i]? = some p)
    (hwin : (bestFor ps model cat).pname = some p.name)
    (hprice : (bestFor ps model cat).price ≠ -1)
    (hne : p.name ≠ "") :
    (agencyHeaderRows 2 ps)[i]? = some (p.name, 0, cellRefOfCol (2 + i)) ∧
    (createBattleExcel ps).header = agencyHeaderRows 2 ps ∧
    (mergedCellFor ps model cat).price =
      PriceCell.formula (bestFor ps model cat).price (cellRefOfCol (2 + i)) := by
  have hlook : adjLookup ps p.name = some (cellRefOfCol (2 + i)) :=
    adjLookup_eq ps i p hnd hi
  refine ⟨agencyHeaderRows_get ps 2 i p hi, rfl, ?_⟩
  simp only [mergedCellFor, renderCell, if_pos hprice, renderPrice, hwin, hlook, if_pos hne]

/-- Source named W winning its only pair at 70, for the C5 witness. -/
def pC5W : Policy :=
  { name := "W", colorHex := "#ABCDEF",
    df := { index := ["M"], cols := ["E|공시 MNP(P)"],
            loc := gridOf [("M", "E|공시 MNP(P)", 70)] },
    selectedModels := [], selectedColumns := [], footerText := "" }

/-- C5 witness: the winning cell of W is the formula on its offset cell. -/
theorem c5_offset_formula_witness :
    (agencyHeaderRows 2 [pC5W])[0]? = some (pC5W.name, 0, cellRefOfCol (2 + 0)) ∧
    (createBattleExcel [pC5W]).header = agencyHeaderRows 2 [pC5W] ∧
    (mergedCellFor [pC5W] "M" Category.gongsiMNP).price =
      PriceCell.formula (bestFor [pC5W] "M" Category.gongsiMNP).price (cellRefOfCol (2 + 0)) :=
  c5_offset_formula [pC5W] 0 pC5W "M" Category.gongsiMNP
    (by decide) rfl (by decide) (by decide) (by decide)
